import Mathlib

/-!
Verification of the riglet/rigra structural JSON processing engine.

This file gives a shallow embedding of the core data model and operations of
the rigra tool (JSON value model, dotted-path addressing, the check engine,
the JSON merge engine of the sync command, and the order/linebreak
formatter), together with theorems settling the specification claims.

Modelling conventions:
- serde_json Value is modelled by the inductive `Json`; objects are
  insertion-ordered association lists (the tool relies on order-preserving
  maps).  Numbers are modelled by two constructors: `inum` for numbers that
  serde_json stores in integer representation (for which as_i64 succeeds;
  the u64-beyond-i64 corner is not modelled) and `fnum` for numbers stored
  as floats, modelled as rationals (for which as_i64 returns None).  The
  two representations are never structurally equal, matching serde_json
  PartialEq.
- Rust strings are Lean String values; byte length is computed through the
  UTF-8 size of each character, matching str::len.
- File reads and the working-directory-relative file label are explicit
  inputs; regex compilation is modelled by an oracle pair (validity of the
  pattern text, and the match function of a valid pattern), since the regex
  crate is an external collaborator.
-/

/-! ## JSON value model (serde_json Value with an order-preserving map) -/

mutual

inductive Json where
  | null
  | bool (b : Bool)
  | inum (n : Int)
  | fnum (q : Rat)
  | str (s : String)
  | arr (elems : JsonList)
  | obj (kvs : JsonKvs)

inductive JsonList where
  | nil
  | cons (hd : Json) (tl : JsonList)

inductive JsonKvs where
  | nil
  | cons (key : String) (val : Json) (tl : JsonKvs)

end

mutual

def Json.beq : Json → Json → Bool
  | .null, .null => true
  | .bool a, .bool b => a == b
  | .inum a, .inum b => a == b
  | .fnum a, .fnum b => a == b
  | .str a, .str b => a == b
  | .arr a, .arr b => JsonList.beq a b
  | .obj a, .obj b => JsonKvs.beq a b
  | _, _ => false

def JsonList.beq : JsonList → JsonList → Bool
  | .nil, .nil => true
  | .cons x xs, .cons y ys => Json.beq x y && JsonList.beq xs ys
  | _, _ => false

def JsonKvs.beq : JsonKvs → JsonKvs → Bool
  | .nil, .nil => true
  | .cons k v tl, .cons k2 v2 tl2 => k == k2 && Json.beq v v2 && JsonKvs.beq tl tl2
  | _, _ => false

end

mutual

theorem jsonBeq_iff : ∀ a b : Json, Json.beq a b = true ↔ a = b
  | .null, .null => by simp [Json.beq]
  | .bool a, .bool b => by simp [Json.beq]
  | .inum a, .inum b => by simp [Json.beq]
  | .fnum a, .fnum b => by simp [Json.beq]
  | .str a, .str b => by simp [Json.beq]
  | .arr a, .arr b => by
      simp only [Json.beq, jsonListBeq_iff a b]
      constructor
      · intro h; rw [h]
      · intro h; cases h; rfl
  | .obj a, .obj b => by
      simp only [Json.beq, jsonKvsBeq_iff a b]
      constructor
      · intro h; rw [h]
      · intro h; cases h; rfl
  | .null, .bool _ => by simp [Json.beq]
  | .null, .inum _ => by simp [Json.beq]
  | .null, .fnum _ => by simp [Json.beq]
  | .null, .str _ => by simp [Json.beq]
  | .null, .arr _ => by simp [Json.beq]
  | .null, .obj _ => by simp [Json.beq]
  | .bool _, .null => by simp [Json.beq]
  | .bool _, .inum _ => by simp [Json.beq]
  | .bool _, .fnum _ => by simp [Json.beq]
  | .bool _, .str _ => by simp [Json.beq]
  | .bool _, .arr _ => by simp [Json.beq]
  | .bool _, .obj _ => by simp [Json.beq]
  | .inum _, .null => by simp [Json.beq]
  | .inum _, .bool _ => by simp [Json.beq]
  | .inum _, .fnum _ => by simp [Json.beq]
  | .inum _, .str _ => by simp [Json.beq]
  | .inum _, .arr _ => by simp [Json.beq]
  | .inum _, .obj _ => by simp [Json.beq]
  | .fnum _, .null => by simp [Json.beq]
  | .fnum _, .bool _ => by simp [Json.beq]
  | .fnum _, .inum _ => by simp [Json.beq]
  | .fnum _, .str _ => by simp [Json.beq]
  | .fnum _, .arr _ => by simp [Json.beq]
  | .fnum _, .obj _ => by simp [Json.beq]
  | .str _, .null => by simp [Json.beq]
  | .str _, .bool _ => by simp [Json.beq]
  | .str _, .inum _ => by simp [Json.beq]
  | .str _, .fnum _ => by simp [Json.beq]
  | .str _, .arr _ => by simp [Json.beq]
  | .str _, .obj _ => by simp [Json.beq]
  | .arr _, .null => by simp [Json.beq]
  | .arr _, .bool _ => by simp [Json.beq]
  | .arr _, .inum _ => by simp [Json.beq]
  | .arr _, .fnum _ => by simp [Json.beq]
  | .arr _, .str _ => by simp [Json.beq]
  | .arr _, .obj _ => by simp [Json.beq]
  | .obj _, .null => by simp [Json.beq]
  | .obj _, .bool _ => by simp [Json.beq]
  | .obj _, .inum _ => by simp [Json.beq]
  | .obj _, .fnum _ => by simp [Json.beq]
  | .obj _, .str _ => by simp [Json.beq]
  | .obj _, .arr _ => by simp [Json.beq]

theorem jsonListBeq_iff : ∀ a b : JsonList, JsonList.beq a b = true ↔ a = b
  | .nil, .nil => by simp [JsonList.beq]
  | .nil, .cons _ _ => by simp [JsonList.beq]
  | .cons _ _, .nil => by simp [JsonList.beq]
  | .cons x xs, .cons y ys => by
      simp only [JsonList.beq, Bool.and_eq_true, jsonBeq_iff x y, jsonListBeq_iff xs ys]
      constructor
      · rintro ⟨h1, h2⟩; rw [h1, h2]
      · intro h; cases h; exact ⟨rfl, rfl⟩

theorem jsonKvsBeq_iff : ∀ a b : JsonKvs, JsonKvs.beq a b = true ↔ a = b
  | .nil, .nil => by simp [JsonKvs.beq]
  | .nil, .cons _ _ _ => by simp [JsonKvs.beq]
  | .cons _ _ _, .nil => by simp [JsonKvs.beq]
  | .cons k v tl, .cons k2 v2 tl2 => by
      simp only [JsonKvs.beq, Bool.and_eq_true, jsonBeq_iff v v2, jsonKvsBeq_iff tl tl2,
        beq_iff_eq]
      constructor
      · rintro ⟨⟨h0, h1⟩, h2⟩; rw [h0, h1, h2]
      · intro h; cases h; exact ⟨⟨rfl, rfl⟩, rfl⟩

end

instance : DecidableEq Json := fun a b =>
  decidable_of_iff (Json.beq a b = true) (jsonBeq_iff a b)

instance : DecidableEq JsonList := fun a b =>
  decidable_of_iff (JsonList.beq a b = true) (jsonListBeq_iff a b)

instance : DecidableEq JsonKvs := fun a b =>
  decidable_of_iff (JsonKvs.beq a b = true) (jsonKvsBeq_iff a b)

/-! ## Operations on the ordered object map and on JSON arrays

`kvsInsert` models serde_json Map::insert with the order-preserving map:
an existing key keeps its position and gets the new value, a new key is
appended at the end.  `kvsRemove` models key removal; the order of the
remaining entries is modelled as preserved (no claim in this file observes
the entry order after a removal).  `kvsLookup` models Map::get. -/

def kvsLookup : JsonKvs → String → Option Json
  | .nil, _ => none
  | .cons k v tl, key => if k = key then some v else kvsLookup tl key

def kvsInsert : JsonKvs → String → Json → JsonKvs
  | .nil, key, v => .cons key v .nil
  | .cons k w tl, key, v =>
      if k = key then .cons k v tl else .cons k w (kvsInsert tl key v)

def kvsRemove : JsonKvs → String → JsonKvs
  | .nil, _ => .nil
  | .cons k v tl, key =>
      if k = key then kvsRemove tl key else .cons k v (kvsRemove tl key)

def jlAppend : JsonList → JsonList → JsonList
  | .nil, ys => ys
  | .cons x xs, ys => .cons x (jlAppend xs ys)

/-- Structural membership in a JSON array, the `merged.iter().any(|x| x == it)`
test of the union strategy (serde_json PartialEq is structural equality). -/
def jlContains (l : JsonList) (x : Json) : Bool :=
  match l with
  | .nil => false
  | .cons h t => if h = x then true else jlContains t x

/-! ## String helpers mirroring the Rust str operations used by the tool

All helpers work on the character list of the string so that every
definition is structurally recursive and kernel-computable.  Whitespace is
the ASCII whitespace set (the documents and paths in all claims are ASCII). -/

def splitListOn (c : Char) : List Char → List (List Char)
  | [] => [[]]
  | x :: xs =>
      let r := splitListOn c xs
      if x = c then [] :: r
      else
        match r with
        | h :: t => (x :: h) :: t
        | [] => [[x]]

/-- str::split on a single character, as a list of strings. -/
def splitOnDot (s : String) : List String :=
  (splitListOn '.' s.data).map (fun l => ⟨l⟩)

/-- str::trim (leading and trailing whitespace removed). -/
def trimStr (s : String) : String :=
  ⟨((s.data.dropWhile Char.isWhitespace).reverse.dropWhile Char.isWhitespace).reverse⟩

/-- str::strip_prefix with the single character `$`: removes one leading
dollar when present, otherwise leaves the string unchanged. -/
def dropOneDollar (s : String) : String :=
  match s.data with
  | c :: rest => if c = '$' then ⟨rest⟩ else s
  | [] => s

/-- str::trim_start_matches with the character `$` (removes all leading dollars). -/
def dropLeadingDollars (s : String) : String :=
  ⟨s.data.dropWhile (fun c => c = '$')⟩

/-- str::trim_start_matches with the character `.` (removes all leading dots). -/
def dropLeadingDots (s : String) : String :=
  ⟨s.data.dropWhile (fun c => c = '.')⟩

/-- Fuel-driven core of str::replace; the fuel starts at the length of the
text, which suffices because each step consumes at least one character. -/
def repFuel (pat rep : List Char) : Nat → List Char → List Char
  | _, [] => []
  | 0, l => l
  | Nat.succ n, x :: xs =>
      if pat.isPrefixOf (x :: xs) then rep ++ repFuel pat rep n ((x :: xs).drop pat.length)
      else x :: repFuel pat rep n xs

/-- str::replace: all non-overlapping occurrences of `pat` replaced by `rep`,
left to right.  The code only ever calls it with non-empty literal
placeholders, so the empty-pattern case is modelled as the identity. -/
def strReplace (s pat rep : String) : String :=
  if pat.data = [] then s else ⟨repFuel pat.data rep.data s.data.length s.data⟩

/-- str::len, the UTF-8 byte length of the string. -/
def byteLen (s : String) : Nat :=
  s.data.foldl (fun n c => n + c.utf8Size) 0

/-! ## Dotted-path parsing and lookup (utils.rs get_json_path) -/

/-- The path normalization used by get_json_path: trim, strip one leading
`$` (and, only when a `$` was stripped, the following dots), split on `.`,
and ignore empty segments. -/
def parseGetPath (path : String) : List String :=
  let t := trimStr path
  let p :=
    match t.data with
    | c :: rest => if c = '$' then dropLeadingDots ⟨rest⟩ else t
    | [] => t
  (splitOnDot p).filter (fun s => s ≠ "")

/-- Segment-by-segment walk of the tree: objects are entered through their
keys, any other constructor with a remaining segment yields absence. -/
def walk : Json → List String → Option Json
  | j, [] => some j
  | Json.obj kvs, s :: rest =>
      match kvsLookup kvs s with
      | some v => walk v rest
      | none => none
  | _, _ :: _ => none

/-- utils.rs get_json_path: nested value lookup by a `$.a.b` or `a.b` path. -/
def get_json_path (j : Json) (path : String) : Option Json :=
  walk j (parseGetPath path)

/-! ## Path write/delete (the set_path closure of sync.rs apply_json_merge) -/

/-- The path normalization of the set_path closure: trim, strip all leading
`$`, strip all leading dots, split on `.`, ignore empty segments.  (Unlike
get_json_path it always strips leading dots.) -/
def parseSetPathStr (path : String) : List String :=
  (splitOnDot (dropLeadingDots (dropLeadingDollars (trimStr path)))).filter (fun s => s ≠ "")

/-- The walking core of the set_path closure on a non-empty segment list.
With a final segment only: insert or remove the key in the current Object
(no effect when the current node is not an Object).  With more segments:
enter the key, inserting a fresh empty Object when the key is missing;
when the current node is not an Object the whole operation is a no-op. -/
def setSegs : Json → List String → Option Json → Json
  | Json.obj kvs, [last], v =>
      Json.obj (match v with
        | some w => kvsInsert kvs last w
        | none => kvsRemove kvs last)
  | Json.obj kvs, s :: rest, v =>
      Json.obj (kvsInsert kvs s (setSegs ((kvsLookup kvs s).getD (Json.obj .nil)) rest v))
  | cur, _, _ => cur

/-- sync.rs set_path closure: set (Some value) or delete (None) at a dotted
path; an empty segment list replaces the whole document (with null on
delete). -/
def set_path (root : Json) (path : String) (v : Option Json) : Json :=
  match parseSetPathStr path with
  | [] => v.getD Json.null
  | segs => setSegs root segs v

/-! ## JSON serialization (serde_json to_string and to_string_pretty)

Integer numbers print in decimal.  Float-represented numbers with integral
value print with a trailing `.0` exactly as serde_json does; other float
values are given a definite rendering that no theorem in this file depends
on.  Strings escape the quote, the backslash and ASCII control characters. -/

def hexDigit (n : Nat) : Char :=
  if n < 10 then Char.ofNat (48 + n) else Char.ofNat (87 + n)

def escChar (c : Char) : List Char :=
  if c = '"' then ['\\', '"']
  else if c = '\\' then ['\\', '\\']
  else if c = '\n' then ['\\', 'n']
  else if c = '\r' then ['\\', 'r']
  else if c = '\t' then ['\\', 't']
  else if c = Char.ofNat 8 then ['\\', 'b']
  else if c = Char.ofNat 12 then ['\\', 'f']
  else if c.toNat < 32 then
    ['\\', 'u', '0', '0', hexDigit (c.toNat / 16), hexDigit (c.toNat % 16)]
  else [c]

/-- A JSON string literal with its enclosing quotes. -/
def quoteStr (s : String) : String :=
  ⟨'"' :: (s.data.foldr (fun c acc => escChar c ++ acc) ['"'])⟩

/-- Rendering of a float-represented number (model of the ryu formatting
used by serde_json; exact for integral values, which print as `n.0`). -/
def renderFloat (q : Rat) : String :=
  if q.den = 1 then q.num.repr ++ ".0" else q.num.repr ++ "div" ++ q.den.repr

def indentStr (n : Nat) : String :=
  ⟨List.replicate (2 * n) ' '⟩

mutual

/-- serde_json to_string_pretty of a value at a given indentation depth. -/
def prettyV : Json → Nat → String
  | .null, _ => "null"
  | .bool true, _ => "true"
  | .bool false, _ => "false"
  | .inum n, _ => n.repr
  | .fnum q, _ => renderFloat q
  | .str s, _ => quoteStr s
  | .arr .nil, _ => "[]"
  | .arr (.cons x xs), ind =>
      "[\n" ++ prettyL (.cons x xs) (ind + 1) ++ "\n" ++ indentStr ind ++ "]"
  | .obj .nil, _ => "\x7b\x7d"
  | .obj (.cons k v tl), ind =>
      "\x7b\n" ++ prettyKvs (.cons k v tl) (ind + 1) ++ "\n" ++ indentStr ind ++ "\x7d"

def prettyL : JsonList → Nat → String
  | .nil, _ => ""
  | .cons x .nil, ind => indentStr ind ++ prettyV x ind
  | .cons x (.cons y ys), ind =>
      indentStr ind ++ prettyV x ind ++ ",\n" ++ prettyL (.cons y ys) ind

def prettyKvs : JsonKvs → Nat → String
  | .nil, _ => ""
  | .cons k v .nil, ind => indentStr ind ++ quoteStr k ++ ": " ++ prettyV v ind
  | .cons k v (.cons k2 v2 tl), ind =>
      indentStr ind ++ quoteStr k ++ ": " ++ prettyV v ind ++ ",\n"
        ++ prettyKvs (.cons k2 v2 tl) ind

end

mutual

/-- serde_json to_string (compact Display form), used by message rendering. -/
def compactV : Json → String
  | .null => "null"
  | .bool true => "true"
  | .bool false => "false"
  | .inum n => n.repr
  | .fnum q => renderFloat q
  | .str s => quoteStr s
  | .arr xs => "[" ++ compactL xs ++ "]"
  | .obj kvs => "\x7b" ++ compactKvs kvs ++ "\x7d"

def compactL : JsonList → String
  | .nil => ""
  | .cons x .nil => compactV x
  | .cons x (.cons y ys) => compactV x ++ "," ++ compactL (.cons y ys)

def compactKvs : JsonKvs → String
  | .nil => ""
  | .cons k v .nil => quoteStr k ++ ":" ++ compactV v
  | .cons k v (.cons k2 v2 tl) =>
      quoteStr k ++ ":" ++ compactV v ++ "," ++ compactKvs (.cons k2 v2 tl)

end

/-! ## Check engine (checks.rs run_checks)

The Check enum mirrors the rule variants consumed by run_checks.  The
`typeOf` variant carries its field-to-kind map as the enumeration produced
by iterating the Rust HashMap: the list order is the iteration order of the
hash map, which is unrelated to any declaration order.  The `file` argument
stands for the rel_to_wd(path) label (a function of the target path and the
ambient working directory, computed once per issue by the code).  The
`valid` and `rex` arguments are the regex-compilation oracle: `valid pat`
states that Regex::new(pat) succeeds and `rex pat s` is its is_match.  The
`re_cache` memoization of the code is semantically transparent (one pattern
text always compiles to the same matcher) and is therefore not represented. -/

inductive Check where
  | required (fields : List String) (message : Option String) (level : Option String)
  | typeOf (fields : List (String × String)) (message : Option String) (level : Option String)
  | const (field : String) (value : Json) (message : Option String) (level : Option String)
  | pattern (field : String) (regex : String) (message : Option String) (level : Option String)
  | enum (field : String) (values : List Json) (message : Option String) (level : Option String)
  | minLength (field : String) (min : Nat) (message : Option String) (level : Option String)
  | maxLength (field : String) (max : Nat) (message : Option String) (level : Option String)

structure Issue where
  file : String
  rule : String
  severity : String
  path : String
  message : String
  deriving DecidableEq

/-- checks.rs is_type: runtime kind test; `integer` is as_i64().is_some(),
which succeeds only for numbers in integer representation. -/
def is_type (v : Json) (kind : String) : Bool :=
  if kind = "string" then (match v with | .str _ => true | _ => false)
  else if kind = "number" then (match v with | .inum _ => true | .fnum _ => true | _ => false)
  else if kind = "integer" then (match v with | .inum _ => true | _ => false)
  else if kind = "boolean" then (match v with | .bool _ => true | _ => false)
  else if kind = "array" then (match v with | .arr _ => true | _ => false)
  else if kind = "object" then (match v with | .obj _ => true | _ => false)
  else if kind = "null" then (match v with | .null => true | _ => false)
  else false

/-- checks.rs json_kind: the kind name of a value, in the same test order
as the source (string, boolean, array, object, null, integer, number). -/
def json_kind (v : Json) : String :=
  match v with
  | .str _ => "string"
  | .bool _ => "boolean"
  | .arr _ => "array"
  | .obj _ => "object"
  | .null => "null"
  | .inum _ => "integer"
  | .fnum _ => "number"

/-- The field normalization used for issue paths and message placeholders:
trim_start_matches of `$` then of `.` (no whitespace trimming). -/
def normField (f : String) : String :=
  dropLeadingDots (dropLeadingDollars f)

/-- The `$.`-prefixed normalized path stored in every Issue. -/
def stdPath (f : String) : String :=
  "$." ++ normField f

/-- The matcher used by the Pattern arm: a valid pattern matches through the
regex oracle; an invalid pattern falls back to Regex::new("^$"), which
matches exactly the empty string. -/
def patternMatches (valid : String → Bool) (rex : String → String → Bool)
    (pat s : String) : Bool :=
  if valid pat then rex pat s else decide (s = "")

/-- Model of the Rust Debug rendering of the allowed-value vector in the
default Enum message (bracketed, comma separated); no theorem depends on
its exact shape. -/
def debugValues (values : List Json) : String :=
  "[" ++ String.intercalate ", " (values.map compactV) ++ "]"

/-- One check evaluated against the document, producing its issues in
order; the direct transcription of one arm of the run_checks match. -/
def runCheck1 (valid : String → Bool) (rex : String → String → Bool)
    (file ruleId : String) (json : Json) : Check → List Issue
  | .required fields message level =>
      let sev := level.getD "error"
      fields.filterMap (fun f =>
        match get_json_path json f with
        | some _ => none
        | none =>
            let norm := normField f
            let msg := strReplace (strReplace
              (message.getD "Field \x27\x7b\x7bfield\x7d\x7d\x27 is required at $.\x7b\x7bfield\x7d\x7d")
              "\x7b\x7bfield\x7d\x7d" norm) "\x7b\x7bpath\x7d\x7d" ("$." ++ norm)
            some ⟨file, ruleId, sev, stdPath f, msg⟩)
  | .typeOf fields message level =>
      let sev := level.getD "error"
      let base := message.getD "Expected \x7b\x7bkind\x7d\x7d at $.\x7b\x7bpath\x7d\x7d"
      fields.filterMap (fun pk =>
        match get_json_path json pk.1 with
        | some v =>
            if is_type v pk.2 then none
            else
              let norm := normField pk.1
              some ⟨file, ruleId, sev, stdPath pk.1,
                strReplace (strReplace (strReplace base "\x7b\x7bkind\x7d\x7d" pk.2)
                  "\x7b\x7bpath\x7d\x7d" ("$." ++ norm)) "\x7b\x7bactual\x7d\x7d" (json_kind v)⟩
        | none => none)
  | .const field value message level =>
      let sev := level.getD "error"
      let got := get_json_path json field
      if got = some value then []
      else
        let norm := normField field
        let msg := strReplace (strReplace (strReplace
          (message.getD "Field must equal expected value")
          "\x7b\x7bexpected\x7d\x7d" (compactV value))
          "\x7b\x7bactual\x7d\x7d" ((got.map compactV).getD "null"))
          "\x7b\x7bpath\x7d\x7d" ("$." ++ norm)
        [⟨file, ruleId, sev, stdPath field, msg⟩]
  | .pattern field regex message level =>
      let sev := level.getD "error"
      match get_json_path json field with
      | some (.str s) =>
          if patternMatches valid rex regex s then []
          else
            let norm := normField field
            let msg := strReplace (strReplace (strReplace
              (message.getD "Pattern mismatch")
              "\x7b\x7bpattern\x7d\x7d" regex)
              "\x7b\x7bactual\x7d\x7d" s)
              "\x7b\x7bpath\x7d\x7d" ("$." ++ norm)
            [⟨file, ruleId, sev, stdPath field, msg⟩]
      | _ => []
  | .enum field values message level =>
      let sev := level.getD "error"
      match get_json_path json field with
      | some actual =>
          if values.any (fun v => v = actual) then []
          else
            let norm := normField field
            let msg := strReplace (strReplace (strReplace
              (message.getD "Value not in allowed set")
              "\x7b\x7bexpected\x7d\x7d" (debugValues values))
              "\x7b\x7bactual\x7d\x7d" (compactV actual))
              "\x7b\x7bpath\x7d\x7d" ("$." ++ norm)
            [⟨file, ruleId, sev, stdPath field, msg⟩]
      | none => []
  | .minLength field min message level =>
      let sev := level.getD "error"
      match get_json_path json field with
      | some (.str s) =>
          if byteLen s < min then
            let msg := strReplace (strReplace (strReplace
              (message.getD "String shorter than minimum")
              "\x7b\x7bexpected\x7d\x7d" (Nat.repr min))
              "\x7b\x7bactual\x7d\x7d" (Nat.repr (byteLen s)))
              "\x7b\x7bpath\x7d\x7d" (stdPath field)
            [⟨file, ruleId, sev, stdPath field, msg⟩]
          else []
      | _ => []
  | .maxLength field max message level =>
      let sev := level.getD "error"
      match get_json_path json field with
      | some (.str s) =>
          if max < byteLen s then
            let msg := strReplace (strReplace (strReplace
              (message.getD "String longer than maximum")
              "\x7b\x7bexpected\x7d\x7d" (Nat.repr max))
              "\x7b\x7bactual\x7d\x7d" (Nat.repr (byteLen s)))
              "\x7b\x7bpath\x7d\x7d" (stdPath field)
            [⟨file, ruleId, sev, stdPath field, msg⟩]
          else []
      | _ => []

/-- checks.rs run_checks: every check evaluated in declared order, issues
appended in evaluation order. -/
def run_checks (valid : String → Bool) (rex : String → String → Bool)
    (checks : List Check) (json : Json) (file ruleId : String) : List Issue :=
  (checks.map (runCheck1 valid rex file ruleId json)).flatten

/-! ## Merge engine (sync.rs apply_json_merge)

The client merge configuration (config::SyncClientMergeCfg) carries the
override/keep/nosync path lists and the optional per-path array-strategy
map; the map is represented by its iteration order as a list of pairs.
File reads are explicit inputs: the destination file is `none` when absent
and otherwise carries its text together with its parse outcome; the
checksum sidecar likewise carries its text when present. -/

structure MergeCfg where
  override_paths : List String
  keep_paths : List String
  nosync_paths : List String
  array : Option (List (String × String))

/-- One step of the union strategy loop: push the template element unless
already structurally present in the merged array. -/
def unionPush (acc : JsonList) (x : Json) : JsonList :=
  if jlContains acc x then acc else jlAppend acc (.cons x .nil)

def unionFold (acc : JsonList) : JsonList → JsonList
  | .nil => acc
  | .cons x xs => unionFold (unionPush acc x) xs

/-- The union strategy of apply_json_merge: start from the destination
array elements and push each template element not already present. -/
def unionArr (da sa : JsonList) : JsonList :=
  unionFold da sa

/-- The template elements not structurally present in the destination array. -/
def jlFilterNotIn (da : JsonList) : JsonList → JsonList
  | .nil => .nil
  | .cons x xs =>
      if jlContains da x then jlFilterNotIn da xs
      else .cons x (jlFilterNotIn da xs)

def jlDedupGo (seen : JsonList) : JsonList → JsonList
  | .nil => .nil
  | .cons x xs =>
      if jlContains seen x then jlDedupGo seen xs
      else .cons x (jlDedupGo (jlAppend seen (.cons x .nil)) xs)

/-- Stated from the words of the specification: the merged array is the
destination array elements (in destination order) followed by the template
array elements not already structurally present in the destination array,
de-duplicated by full structural equality (first occurrence kept). -/
def unionSpecWords (da sa : JsonList) : JsonList :=
  jlAppend da (jlDedupGo .nil (jlFilterNotIn da sa))

/-- The destination array at a segment path, when the destination value
there is an array (the `.and_then(|v| v.as_array())` of the source);
anything else contributes no elements. -/
def destArrAt (dst : Json) (segs : List String) : JsonList :=
  match walk dst segs with
  | some (Json.arr d) => d
  | _ => .nil

/-- The merged document computed by apply_json_merge before serialization:
a copy of the template, then the override loop (re-asserting template
values), the keep and nosync loops (destination value when present,
deletion otherwise), and finally the array strategies. -/
def mergeResult (srcJson dstJson : Json) (cfg : MergeCfg) : Json :=
  let r1 := cfg.override_paths.foldl (fun r p =>
    match get_json_path srcJson p with
    | some v => set_path r p (some v)
    | none => r) srcJson
  let r2 := cfg.keep_paths.foldl (fun r p =>
    match get_json_path dstJson p with
    | some v => set_path r p (some v)
    | none => set_path r p none) r1
  let r3 := cfg.nosync_paths.foldl (fun r p =>
    match get_json_path dstJson p with
    | some v => set_path r p (some v)
    | none => set_path r p none) r2
  match cfg.array with
  | none => r3
  | some arr =>
      arr.foldl (fun r ps =>
        if ps.2 = "union" then
          match get_json_path srcJson ps.1 with
          | some (Json.arr sa) =>
              let da := match get_json_path dstJson ps.1 with
                | some v => (match v with | Json.arr d => d | _ => .nil)
                | none => .nil
              set_path r ps.1 (some (Json.arr (unionArr da sa)))
          | _ => r
        else
          match get_json_path srcJson ps.1 with
          | some v => set_path r ps.1 (some v)
          | none => r) r3

/-- sync.rs fingerprint: `\x7b:016x\x7d-\x7b\x7d` of the DefaultHasher hash and the byte
length.  The 64-bit hash component is the oracle `h`; theorems depend only
on equal inputs having equal fingerprints, which holds for any `h`. -/
def fingerprint (h : String → String) (s : String) : String :=
  h s ++ "-" ++ Nat.repr (byteLen s)

/-- A concrete stand-in hash used to instantiate closed statements; the
properties proved do not depend on its values. -/
def hashConst : String → String := fun _ => "0123456789abcdef"

/-- The parsed destination used by the merge: the parse result when the
destination file exists and parses, and Null both when the file is absent
and when it exists but fails to parse (serde_json from_str unwrap_or). -/
def dstJsonOf : Option (String × Option Json) → Json
  | some (_, some j) => j
  | _ => Json.null

/-- apply_json_merge falls back to a verbatim copy exactly when the
template text does not parse as JSON. -/
def mergeTakesCopy (srcParse : Option Json) : Bool :=
  srcParse.isNone

structure SideState where
  dstText : Option String
  chkText : Option String
  deriving DecidableEq

structure MergeOut where
  wrote : Bool
  wouldWrite : Bool
  outStr : String
  result : Json
  state : SideState

/-- The structured branch of apply_json_merge with its file effects made
explicit.  The merge result is serialized with to_string_pretty, its
fingerprint is compared with the fingerprint of the current destination
text (read_to_string(dst) at compare time); on a match the function
reports (wrote = false, would_write = false) and performs no writes.
Otherwise would_write is true and, in write mode, the checksum sidecar
receives the new fingerprint and the destination receives the merged text. -/
def apply_json_merge (h : String → String) (srcJson : Json)
    (dst : Option (String × Option Json)) (chk : Option String)
    (cfg : MergeCfg) (write : Bool) : MergeOut :=
  let dstJson := dstJsonOf dst
  let result := mergeResult srcJson dstJson cfg
  let outStr := prettyV result 0
  let outFp := fingerprint h outStr
  let curFp := (dst.map Prod.fst).map (fingerprint h)
  if some outFp = curFp then
    ⟨false, false, outStr, result, ⟨dst.map Prod.fst, chk⟩⟩
  else if write then
    ⟨true, true, outStr, result, ⟨some outStr, some outFp⟩⟩
  else
    ⟨false, true, outStr, result, ⟨dst.map Prod.fst, chk⟩⟩

/-! ## Formatter (order and linebreak canonicalizer)

Modelled from the spec: the formatter source (format.rs) is not part of the
provided sources; only its callers and integration tests are.  The model
below follows §4.3 of the specification.  A document is represented by the
information the formatter recovers from the source text: the top-level
fields in original order, each carrying its parsed value, the blank-line
evidence immediately before the field, and the blank-line evidence before
each direct child of an object-valued field (one level, per §4.3 rule 3).
The specification states that the formatter recovers this evidence by
scanning the source text; accordingly, the document corresponding to a
rendered output is represented by the field structure of that output. -/

structure FieldSrc where
  key : String
  val : Json
  blankBefore : Bool
  innerBlanks : List (String × Bool)
  deriving DecidableEq

/-- Modelled from the spec: the policy inputs of run_format — the ordered
key groups, the policy-file linebreak settings, and the caller overrides
(override beats policy beats the built-in default of no blank lines). -/
structure FmtPolicy where
  groups : List (List String)
  betweenGroups : Bool
  beforeFields : List (String × String)
  inFields : List (String × String)

structure FmtOverrides where
  betweenGroups : Option Bool
  beforeFields : List (String × String)
  inFields : List (String × String)

/-- The rank of a key: the index of the first group containing it, or the
trailing rank (number of groups) for unlisted keys. -/
def rankOf (groups : List (List String)) (k : String) : Nat :=
  match groups.findIdx? (fun g => g.contains k) with
  | some i => i
  | none => groups.length

/-- The rank comparison used for the stable sort of fields. -/
def fieldLe (groups : List (List String)) (a b : FieldSrc) : Bool :=
  decide (rankOf groups a.key ≤ rankOf groups b.key)

/-- Modelled from the spec: stable sort of the present fields by
(rank, original position); mergeSort is a stable sort, so ties keep their
original relative order. -/
def sortFields (groups : List (List String)) (l : List FieldSrc) : List FieldSrc :=
  l.mergeSort (fieldLe groups)

/-- Field-level linebreak resolution: caller override first, then the
policy file value. -/
def lbResolve (ovm polm : List (String × String)) (f : String) : Option String :=
  match List.lookup f ovm with
  | some s => some s
  | none => List.lookup f polm

/-- Modelled from the spec (§4.3 rules 1 and 2): the blank-line decision
before one field.  `none` forces no blank line; `keep` reproduces the
blank-line evidence of the source text; otherwise between_groups inserts a
blank line at a group transition, never before the first field. -/
def lbBefore (pol : FmtPolicy) (ov : FmtOverrides) (isFirst : Bool)
    (prevRank curRank : Nat) (e : FieldSrc) : Bool :=
  let dflt := (ov.betweenGroups.getD pol.betweenGroups) && !isFirst
    && decide (curRank ≠ prevRank)
  match lbResolve ov.beforeFields pol.beforeFields e.key with
  | some s => if s = "none" then false else if s = "keep" then e.blankBefore else dflt
  | none => dflt

/-- Modelled from the spec (§4.3 rule 3): blank lines between the direct
children of an object-valued field are kept verbatim under `keep` and
stripped otherwise (the built-in default is no blank lines). -/
def lbInner (pol : FmtPolicy) (ov : FmtOverrides) (e : FieldSrc) : List (String × Bool) :=
  match e.val with
  | Json.obj _ =>
      (match lbResolve ov.inFields pol.inFields e.key with
        | some s => if s = "keep" then e.innerBlanks else []
        | none => [])
  | _ => []

/-- The strict-mode linebreak pass over the already-ordered fields,
carrying whether the current field is the first and the rank of the
previous field (for group-transition detection). -/
def applyLB (pol : FmtPolicy) (ov : FmtOverrides) :
    Bool → Nat → List FieldSrc → List FieldSrc
  | _, _, [] => []
  | isFirst, prevRank, e :: rest =>
      let r := rankOf pol.groups e.key
      { e with blankBefore := lbBefore pol ov isFirst prevRank r e,
               innerBlanks := lbInner pol ov e } :: applyLB pol ov false r rest

/-- Modelled from the spec: the formatter field transformation — reorder,
then (in strict mode only) recompute every blank-line decision; in
non-strict mode every original blank line is preserved with its field. -/
def fmtFields (pol : FmtPolicy) (ov : FmtOverrides) (strict : Bool)
    (l : List FieldSrc) : List FieldSrc :=
  let s := sortFields pol.groups l
  if strict then applyLB pol ov true 0 s else s

/-- Rendering of the direct children of an object-valued top-level field,
honoring the per-child blank-line flags. -/
def renderInnerKvs (flags : List (String × Bool)) : Bool → JsonKvs → String
  | _, .nil => ""
  | first, .cons k v tl =>
      (if first then "" else ",\n")
        ++ (if ((List.lookup k flags).getD false) then "\n" else "")
        ++ "    " ++ quoteStr k ++ ": " ++ prettyV v 2
        ++ renderInnerKvs flags false tl

/-- The canonical rendering of one top-level field value: object values are
laid out with the in-field blank flags, other values with the fixed pretty
convention. -/
def renderVal (e : FieldSrc) : String :=
  match e.val with
  | Json.obj .nil => "\x7b\x7d"
  | Json.obj kvs => "\x7b\n" ++ renderInnerKvs e.innerBlanks true kvs ++ "\n  \x7d"
  | v => prettyV v 1

def renderTop : Bool → List FieldSrc → String
  | _, [] => ""
  | first, e :: tl =>
      (if first then "" else ",\n")
        ++ (if e.blankBefore then "\n" else "")
        ++ "  " ++ quoteStr e.key ++ ": " ++ renderVal e
        ++ renderTop false tl

/-- Modelled from the spec: the canonical text of an ordered field list,
with the fixed pretty-printing convention (stable indentation, one key per
line) and a blank line wherever a blank flag is set. -/
def renderDoc (l : List FieldSrc) : String :=
  match l with
  | [] => "\x7b\x7d"
  | _ => "\x7b\n" ++ renderTop true l ++ "\n\x7d"

structure DocumentM where
  text : String
  fields : List FieldSrc
  deriving DecidableEq

structure FormatOut where
  changed : Bool
  rendered : String
  outFields : List FieldSrc
  deriving DecidableEq

/-- Modelled from the spec: format(document, policy, strict) — render the
transformed fields; changed is true exactly when the rendered text differs
byte-for-byte from the original text. -/
def run_format (pol : FmtPolicy) (ov : FmtOverrides) (strict : Bool)
    (d : DocumentM) : FormatOut :=
  let out := fmtFields pol ov strict d.fields
  let txt := renderDoc out
  ⟨decide (txt ≠ d.text), txt, out⟩

/-- The document corresponding to a format output: the rendered text
together with its field structure (the blank-line evidence a scan of the
rendered text recovers is exactly the blank flags the renderer wrote). -/
def docOf (r : FormatOut) : DocumentM :=
  ⟨r.rendered, r.outFields⟩

/-! ## Lemmas about the ordered map operations -/

theorem kvsLookup_insert_self : ∀ (kvs : JsonKvs) (k : String) (v : Json),
    kvsLookup (kvsInsert kvs k v) k = some v
  | .nil, k, v => by simp [kvsInsert, kvsLookup]
  | .cons k2 w tl, k, v => by
      by_cases h : k2 = k
      · simp [kvsInsert, kvsLookup, h]
      · simp [kvsInsert, kvsLookup, h, kvsLookup_insert_self tl k v]

theorem kvsLookup_insert_ne : ∀ (kvs : JsonKvs) (k k2 : String) (v : Json),
    k2 ≠ k → kvsLookup (kvsInsert kvs k v) k2 = kvsLookup kvs k2
  | .nil, k, k2, v, h => by
      have hne : ¬ k = k2 := fun he => h he.symm
      simp [kvsInsert, kvsLookup, hne]
  | .cons k3 w tl, k, k2, v, h => by
      by_cases h3 : k3 = k
      · subst h3
        have hne : ¬ k3 = k2 := fun he => h he.symm
        simp [kvsInsert, kvsLookup, hne]
      · by_cases h2 : k3 = k2
        · subst h2
          simp [kvsInsert, kvsLookup, h3]
        · simp [kvsInsert, kvsLookup, h3, h2, kvsLookup_insert_ne tl k k2 v h]

theorem kvsInsert_self : ∀ (kvs : JsonKvs) (k : String) (v : Json),
    kvsLookup kvs k = some v → kvsInsert kvs k v = kvs
  | .nil, k, v, h => by simp [kvsLookup] at h
  | .cons k2 w tl, k, v, h => by
      by_cases h2 : k2 = k
      · subst h2
        simp [kvsLookup] at h
        simp [kvsInsert, h]
      · simp [kvsLookup, h2] at h
        simp [kvsInsert, h2, kvsInsert_self tl k v h]

theorem kvsLookup_remove_self : ∀ (kvs : JsonKvs) (k : String),
    kvsLookup (kvsRemove kvs k) k = none
  | .nil, k => by simp [kvsRemove, kvsLookup]
  | .cons k2 w tl, k => by
      by_cases h : k2 = k <;> simp [kvsRemove, kvsLookup, h, kvsLookup_remove_self tl k]

theorem kvsLookup_remove_ne : ∀ (kvs : JsonKvs) (k k2 : String),
    k2 ≠ k → kvsLookup (kvsRemove kvs k) k2 = kvsLookup kvs k2
  | .nil, k, k2, h => by simp [kvsRemove]
  | .cons k3 w tl, k, k2, h => by
      by_cases h3 : k3 = k
      · subst h3
        have hne : ¬ k3 = k2 := fun he => h he.symm
        simp [kvsRemove, kvsLookup, hne, kvsLookup_remove_ne tl k3 k2 h]
      · by_cases h2 : k3 = k2
        · subst h2
          simp [kvsRemove, kvsLookup, h3]
        · simp [kvsRemove, kvsLookup, h3, h2, kvsLookup_remove_ne tl k k2 h]

theorem kvsRemove_absent : ∀ (kvs : JsonKvs) (k : String),
    kvsLookup kvs k = none → kvsRemove kvs k = kvs
  | .nil, k, _ => by simp [kvsRemove]
  | .cons k2 w tl, k, h => by
      by_cases h2 : k2 = k
      · simp [kvsLookup, h2] at h
      · simp [kvsLookup, h2] at h
        simp [kvsRemove, h2, kvsRemove_absent tl k h]

/-! ## Lemmas about walk and setSegs -/

/-- Whether a set at this segment list would complete without meeting a
pre-existing non-Object intermediate: every proper prefix of the segments
resolves to an Object or to nothing. -/
def prefOk : Json → List String → Bool
  | _, [] => true
  | Json.obj kvs, s :: rest =>
      (match kvsLookup kvs s with
        | some child => prefOk child rest
        | none => true)
  | _, _ :: _ => false

theorem prefOk_of_walk : ∀ (segs : List String) (src v : Json),
    walk src segs = some v → prefOk src segs = true := by
  intro segs
  induction segs with
  | nil => intro src v _; simp [prefOk]
  | cons s rest ih =>
      intro src v hw
      cases src with
      | obj kvs =>
          simp only [walk] at hw
          cases hl : kvsLookup kvs s with
          | none => rw [hl] at hw; simp at hw
          | some child =>
              rw [hl] at hw
              simp [prefOk, hl, ih child v hw]
      | null => simp [walk] at hw
      | bool b => simp [walk] at hw
      | inum n => simp [walk] at hw
      | fnum q => simp [walk] at hw
      | str s2 => simp [walk] at hw
      | arr xs => simp [walk] at hw

theorem walk_setSegs_some : ∀ (segs : List String) (src v : Json),
    segs ≠ [] → prefOk src segs = true →
    walk (setSegs src segs (some v)) segs = some v := by
  intro segs
  induction segs with
  | nil => intro src v h; exact absurd rfl h
  | cons s rest ih =>
      intro src v _ hpre
      cases src with
      | obj kvs =>
          cases rest with
          | nil =>
              simp [setSegs, walk, kvsLookup_insert_self]
          | cons r rs =>
              simp only [prefOk] at hpre
              cases hl : kvsLookup kvs s with
              | some child =>
                  rw [hl] at hpre
                  simp only [setSegs, hl, Option.getD_some, walk,
                    kvsLookup_insert_self]
                  exact ih child v (by simp) hpre
              | none =>
                  rw [hl] at hpre
                  simp only [setSegs, hl, Option.getD_none, walk,
                    kvsLookup_insert_self]
                  exact ih (Json.obj .nil) v (by simp) (by cases rs <;> simp [prefOk, kvsLookup])
      | null => simp [prefOk] at hpre
      | bool b => simp [prefOk] at hpre
      | inum n => simp [prefOk] at hpre
      | fnum q => simp [prefOk] at hpre
      | str s2 => simp [prefOk] at hpre
      | arr xs => simp [prefOk] at hpre

theorem setSegs_same : ∀ (segs : List String) (src v : Json),
    segs ≠ [] → walk src segs = some v → setSegs src segs (some v) = src := by
  intro segs
  induction segs with
  | nil => intro src v h; exact absurd rfl h
  | cons s rest ih =>
      intro src v _ hw
      cases src with
      | obj kvs =>
          simp only [walk] at hw
          cases hl : kvsLookup kvs s with
          | none => rw [hl] at hw; simp at hw
          | some child =>
              rw [hl] at hw
              cases rest with
              | nil =>
                  simp only [walk] at hw
                  cases hw
                  simp [setSegs, kvsInsert_self kvs s v hl]
              | cons r rs =>
                  simp only [setSegs, hl, Option.getD_some]
                  rw [ih child v (by simp) hw]
                  rw [kvsInsert_self kvs s child hl]
      | null => simp [walk] at hw
      | bool b => simp [walk] at hw
      | inum n => simp [walk] at hw
      | fnum q => simp [walk] at hw
      | str s2 => simp [walk] at hw
      | arr xs => simp [walk] at hw

theorem walk_setSegs_del_none : ∀ (segs : List String) (src : Json),
    segs ≠ [] → walk (setSegs src segs none) segs = none := by
  intro segs
  induction segs with
  | nil => intro src h; exact absurd rfl h
  | cons s rest ih =>
      intro src _
      cases src with
      | obj kvs =>
          cases rest with
          | nil => simp [setSegs, walk, kvsLookup_remove_self]
          | cons r rs =>
              simp [setSegs, walk, kvsLookup_insert_self]
              exact ih _ (by simp)
      | null => simp [setSegs, walk]
      | bool b => simp [setSegs, walk]
      | inum n => simp [setSegs, walk]
      | fnum q => simp [setSegs, walk]
      | str s2 => simp [setSegs, walk]
      | arr xs => simp [setSegs, walk]

/-- The parent value gives a delete nothing to remove: it is a non-Object,
or an Object without the final key. -/
def delNoopOk (par : Json) (last : String) : Prop :=
  match par with
  | Json.obj kvs => kvsLookup kvs last = none
  | _ => True

theorem setSegs_del_noop : ∀ (segs : List String) (src par : Json) (last : String),
    walk src segs = some par → delNoopOk par last →
    setSegs src (segs ++ [last]) none = src := by
  intro segs
  induction segs with
  | nil =>
      intro src par last hw hok
      simp only [walk] at hw
      cases hw
      cases src with
      | obj kvs =>
          simp only [delNoopOk] at hok
          simp [setSegs, kvsRemove_absent kvs last hok]
      | null => simp [setSegs]
      | bool b => simp [setSegs]
      | inum n => simp [setSegs]
      | fnum q => simp [setSegs]
      | str s2 => simp [setSegs]
      | arr xs => simp [setSegs]
  | cons s rest ih =>
      intro src par last hw hok
      cases src with
      | obj kvs =>
          simp only [walk] at hw
          cases hl : kvsLookup kvs s with
          | none => rw [hl] at hw; simp at hw
          | some child =>
              rw [hl] at hw
              have hrec := ih child par last hw hok
              cases hre : rest ++ [last] with
              | nil => simp at hre
              | cons r2 rs2 =>
                  simp only [List.cons_append, setSegs, hl, Option.getD_some, hre]
                  rw [← hre, hrec, kvsInsert_self kvs s child hl]
      | null => simp [walk] at hw
      | bool b => simp [walk] at hw
      | inum n => simp [walk] at hw
      | fnum q => simp [walk] at hw
      | str s2 => simp [walk] at hw
      | arr xs => simp [walk] at hw

theorem walk_setSegs_del_sibling : ∀ (segs : List String) (src par : Json) (last k : String),
    walk src segs = some par → k ≠ last →
    walk (setSegs src (segs ++ [last]) none) (segs ++ [k]) = walk src (segs ++ [k]) := by
  intro segs
  induction segs with
  | nil =>
      intro src par last k hw hk
      simp only [walk] at hw
      cases hw
      cases src with
      | obj kvs =>
          simp [setSegs, walk, kvsLookup_remove_ne kvs last k hk]
      | null => simp [setSegs]
      | bool b => simp [setSegs]
      | inum n => simp [setSegs]
      | fnum q => simp [setSegs]
      | str s2 => simp [setSegs]
      | arr xs => simp [setSegs]
  | cons s rest ih =>
      intro src par last k hw hk
      cases src with
      | obj kvs =>
          simp only [walk] at hw
          cases hl : kvsLookup kvs s with
          | none => rw [hl] at hw; simp at hw
          | some child =>
              rw [hl] at hw
              cases hre : rest ++ [last] with
              | nil => simp at hre
              | cons r2 rs2 =>
                  simp only [List.cons_append, setSegs, hl, Option.getD_some, hre]
                  rw [← hre]
                  simp only [walk, kvsLookup_insert_self, hl]
                  exact ih child par last k hw hk
      | null => simp [walk] at hw
      | bool b => simp [walk] at hw
      | inum n => simp [walk] at hw
      | fnum q => simp [walk] at hw
      | str s2 => simp [walk] at hw
      | arr xs => simp [walk] at hw

/-- Top-level key lookup of a document (none for non-Object documents). -/
def topGet (j : Json) (k : String) : Option Json :=
  match j with
  | Json.obj kvs => kvsLookup kvs k
  | _ => none

theorem topGet_setSegs_ne (src : Json) (s : String) (rest : List String)
    (v : Option Json) (k : String) (hk : k ≠ s) :
    topGet (setSegs src (s :: rest) v) k = topGet src k := by
  cases src with
  | obj kvs =>
      cases rest with
      | nil =>
          cases v with
          | some w => simp [setSegs, topGet, kvsLookup_insert_ne kvs s k w hk]
          | none => simp [setSegs, topGet, kvsLookup_remove_ne kvs s k hk]
      | cons r rs =>
          simp [setSegs, topGet, kvsLookup_insert_ne _ s k _ hk]
  | null => simp [setSegs]
  | bool b => simp [setSegs]
  | inum n => simp [setSegs]
  | fnum q => simp [setSegs]
  | str s2 => simp [setSegs]
  | arr xs => simp [setSegs]

/-! ## The union strategy equals its specification wording -/

theorem jlAppend_nil_right : ∀ (a : JsonList), jlAppend a .nil = a
  | .nil => rfl
  | .cons x xs => by simp [jlAppend, jlAppend_nil_right xs]

theorem jlAppend_assoc : ∀ (a b c : JsonList),
    jlAppend (jlAppend a b) c = jlAppend a (jlAppend b c)
  | .nil, b, c => rfl
  | .cons x xs, b, c => by simp [jlAppend, jlAppend_assoc xs b c]

theorem jlContains_append : ∀ (a b : JsonList) (x : Json),
    jlContains (jlAppend a b) x = (jlContains a x || jlContains b x)
  | .nil, b, x => by simp [jlAppend, jlContains]
  | .cons h t, b, x => by
      by_cases he : h = x <;> simp [jlAppend, jlContains, he, jlContains_append t b x]

theorem unionFold_words : ∀ (sa acc da seen : JsonList),
    (∀ x, jlContains acc x = (jlContains da x || jlContains seen x)) →
    unionFold acc sa = jlAppend acc (jlDedupGo seen (jlFilterNotIn da sa))
  | .nil, acc, da, seen, _ => by simp [unionFold, jlFilterNotIn, jlDedupGo, jlAppend_nil_right]
  | .cons x xs, acc, da, seen, hc => by
      by_cases hda : jlContains da x = true
      · have hacc : jlContains acc x = true := by rw [hc x, hda]; simp
        simp only [unionFold, unionPush, hacc, if_true, jlFilterNotIn, hda]
        exact unionFold_words xs acc da seen hc
      · by_cases hseen : jlContains seen x = true
        · have hacc : jlContains acc x = true := by rw [hc x, hseen]; simp
          simp only [unionFold, unionPush, hacc, if_true, jlFilterNotIn, hda, if_false,
            jlDedupGo, hseen, if_true]
          exact unionFold_words xs acc da seen hc
        · have hacc : jlContains acc x = false := by
            rw [hc x]
            simp [hda, hseen]
          simp only [unionFold, unionPush, hacc, Bool.false_eq_true, if_false,
            jlFilterNotIn, hda, jlDedupGo, hseen]
          have hrec := unionFold_words xs (jlAppend acc (.cons x .nil))
            da (jlAppend seen (.cons x .nil)) (by
              intro y
              rw [jlContains_append, jlContains_append, hc y]
              cases hy : jlContains da y <;> simp)
          rw [hrec, jlAppend_assoc]
          simp [jlAppend]

/-- The union strategy computes exactly what the specification words say:
destination elements first, then the new template elements de-duplicated
by structural equality. -/
theorem unionArr_eq_words (da sa : JsonList) :
    unionArr da sa = unionSpecWords da sa := by
  apply unionFold_words
  intro x
  simp [jlContains]

/-! ## Unfolding lemmas for mergeResult on the configurations of the claims -/

theorem mergeResult_keep_one (src dst : Json) (p : String) :
    mergeResult src dst ⟨[], [p], [], none⟩ =
      (match get_json_path dst p with
        | some v => set_path src p (some v)
        | none => set_path src p none) := by
  cases h : get_json_path dst p <;> simp [mergeResult, h]

theorem mergeResult_array_one (src dst : Json) (p strat : String) :
    mergeResult src dst ⟨[], [], [], some [(p, strat)]⟩ =
      (if strat = "union" then
        match get_json_path src p with
        | some (Json.arr sa) =>
            let da := match get_json_path dst p with
              | some v => (match v with | Json.arr d => d | _ => .nil)
              | none => .nil
            set_path src p (some (Json.arr (unionArr da sa)))
        | _ => src
      else
        match get_json_path src p with
        | some v => set_path src p (some v)
        | none => src) := by
  by_cases hs : strat = "union"
  · cases h : get_json_path src p with
    | none => simp [mergeResult, hs, h]
    | some v =>
        cases v <;> simp [mergeResult, hs, h]
  · cases h : get_json_path src p <;> simp [mergeResult, hs, h]

/-! ## Formatter idempotence lemmas -/

theorem fieldLe_trans (G : List (List String)) : ∀ (a b c : FieldSrc),
    fieldLe G a b = true → fieldLe G b c = true → fieldLe G a c = true := by
  intro a b c hab hbc
  simp only [fieldLe, decide_eq_true_eq] at *
  omega

theorem fieldLe_total (G : List (List String)) : ∀ (a b : FieldSrc),
    (fieldLe G a b || fieldLe G b a) = true := by
  intro a b
  simp only [fieldLe, Bool.or_eq_true, decide_eq_true_eq]
  omega

theorem pairwise_fieldLe_iff (G : List (List String)) (l : List FieldSrc) :
    l.Pairwise (fun a b => fieldLe G a b = true) ↔
      (l.map (fun e => rankOf G e.key)).Pairwise (· ≤ ·) := by
  rw [List.pairwise_map]
  simp [fieldLe]

theorem applyLB_ranks (pol : FmtPolicy) (ov : FmtOverrides) :
    ∀ (f : Bool) (p : Nat) (l : List FieldSrc),
    (applyLB pol ov f p l).map (fun e => rankOf pol.groups e.key) =
      l.map (fun e => rankOf pol.groups e.key) := by
  intro f p l
  induction l generalizing f p with
  | nil => simp [applyLB]
  | cons e rest ih => simp [applyLB, ih]

theorem sortFields_sorted (G : List (List String)) (l : List FieldSrc) :
    (sortFields G l).Pairwise (fun a b => fieldLe G a b = true) :=
  List.sorted_mergeSort (fieldLe_trans G) (fieldLe_total G) l

theorem sortFields_of_sorted (G : List (List String)) (l : List FieldSrc)
    (h : l.Pairwise (fun a b => fieldLe G a b = true)) : sortFields G l = l :=
  List.mergeSort_of_sorted h

theorem lbBefore_stable (pol : FmtPolicy) (ov : FmtOverrides) (f : Bool)
    (p r : Nat) (e : FieldSrc) (x : List (String × Bool)) :
    lbBefore pol ov f p r
      { e with blankBefore := lbBefore pol ov f p r e, innerBlanks := x } =
      lbBefore pol ov f p r e := by
  simp only [lbBefore]
  cases hr : lbResolve ov.beforeFields pol.beforeFields e.key with
  | none => rfl
  | some s =>
      by_cases h1 : s = "none"
      · simp [h1]
      · by_cases h2 : s = "keep" <;> simp [h1, h2]

theorem lbInner_stable (pol : FmtPolicy) (ov : FmtOverrides) (e : FieldSrc) (b : Bool) :
    lbInner pol ov { e with blankBefore := b, innerBlanks := lbInner pol ov e } =
      lbInner pol ov e := by
  simp only [lbInner]
  cases hv : e.val with
  | obj kvs =>
      cases hr : lbResolve ov.inFields pol.inFields e.key with
      | none => rfl
      | some s => by_cases h1 : s = "keep" <;> simp [h1]
  | null => rfl
  | bool b2 => rfl
  | inum n => rfl
  | fnum q => rfl
  | str s2 => rfl
  | arr xs => rfl

theorem applyLB_idem (pol : FmtPolicy) (ov : FmtOverrides) :
    ∀ (l : List FieldSrc) (f : Bool) (p : Nat),
    applyLB pol ov f p (applyLB pol ov f p l) = applyLB pol ov f p l := by
  intro l
  induction l with
  | nil => intro f p; simp [applyLB]
  | cons e rest ih =>
      intro f p
      simp only [applyLB]
      rw [lbBefore_stable, lbInner_stable, ih false (rankOf pol.groups e.key)]

theorem fmtFields_idem (pol : FmtPolicy) (ov : FmtOverrides) (strict : Bool)
    (l : List FieldSrc) :
    fmtFields pol ov strict (fmtFields pol ov strict l) = fmtFields pol ov strict l := by
  cases strict with
  | false =>
      simp only [fmtFields, Bool.false_eq_true, if_false]
      exact sortFields_of_sorted pol.groups _ (sortFields_sorted pol.groups l)
  | true =>
      have hs : sortFields pol.groups (applyLB pol ov true 0 (sortFields pol.groups l)) =
          applyLB pol ov true 0 (sortFields pol.groups l) := by
        apply sortFields_of_sorted
        rw [pairwise_fieldLe_iff, applyLB_ranks, ← pairwise_fieldLe_iff]
        exact sortFields_sorted pol.groups l
      simp only [fmtFields, if_true]
      rw [hs]
      exact applyLB_idem pol ov _ true 0

/-! ## Glue lemmas at the path-string level -/

theorem set_path_get_roundtrip (src v : Json) (p : String) (segs : List String)
    (hs : parseSetPathStr p = segs) (hpre : prefOk src segs = true) :
    walk (set_path src p (some v)) segs = some v := by
  cases hsegs : segs with
  | nil =>
      subst hsegs
      simp only [set_path, hs]
      simp [walk]
  | cons s0 r0 =>
      subst hsegs
      simp only [set_path, hs]
      exact walk_setSegs_some _ src v (by simp) hpre

theorem set_path_same (src v : Json) (p : String) (segs : List String)
    (hs : parseSetPathStr p = segs) (hw : walk src segs = some v) :
    set_path src p (some v) = src := by
  cases hsegs : segs with
  | nil =>
      subst hsegs
      simp only [walk] at hw
      cases hw
      simp only [set_path, hs]
      rfl
  | cons s0 r0 =>
      subst hsegs
      simp only [set_path, hs]
      exact setSegs_same _ src v (by simp) hw

theorem set_path_del_none (src : Json) (p : String) (segs : List String)
    (hs : parseSetPathStr p = segs) (hne : segs ≠ []) :
    walk (set_path src p none) segs = none := by
  cases hsegs : segs with
  | nil => exact absurd hsegs hne
  | cons s0 r0 =>
      subst hsegs
      simp only [set_path, hs]
      exact walk_setSegs_del_none _ src (by simp)

theorem mergeResult_nosync_one (src dst : Json) (p : String) :
    mergeResult src dst ⟨[], [], [p], none⟩ =
      (match get_json_path dst p with
        | some v => set_path src p (some v)
        | none => set_path src p none) := by
  cases h : get_json_path dst p <;> simp [mergeResult, h]

/-! ## Claim theorems -/

/-- Claim C1 (formatter idempotence): for every policy, caller override
set, strict flag and document, running the formatter on the output of a
first run yields changed = false and byte-identical rendered text.  The
formatter itself is modelled from the spec (format.rs is not among the
provided sources); the second run receives the document whose text and
scanned field structure are exactly the first run output. -/
theorem c1_formatter_idempotent (pol : FmtPolicy) (ov : FmtOverrides) (strict : Bool)
    (d : DocumentM) :
    (run_format pol ov strict (docOf (run_format pol ov strict d))).changed = false ∧
    (run_format pol ov strict (docOf (run_format pol ov strict d))).rendered =
      (run_format pol ov strict d).rendered := by
  have h := fmtFields_idem pol ov strict d.fields
  constructor
  · simp [run_format, docOf, h]
  · simp [run_format, docOf, h]

/-- Claim C2, counterexample: the Type check carries its field map in a
HashMap; the two field enumerations below denote the same rule (they are
permutations of one another, hence the same hash map), yet run_checks
produces the two issues in different orders, so the Issue list is not a
function of the rule with a stable order. -/
theorem c2_cex :
    ([(("a" : String), ("string" : String)), ("b", "string")]).Perm
      [("b", "string"), ("a", "string")] ∧
    run_checks (fun _ => false) (fun _ _ => false)
      [Check.typeOf [("a", "string"), ("b", "string")] none none]
      (Json.obj (.cons "a" (Json.inum 1) (.cons "b" (Json.inum 2) .nil)))
      "package.json" "r" ≠
    run_checks (fun _ => false) (fun _ _ => false)
      [Check.typeOf [("b", "string"), ("a", "string")] none none]
      (Json.obj (.cons "a" (Json.inum 1) (.cons "b" (Json.inum 2) .nil)))
      "package.json" "r" := by
  decide

/-- Claim C2 as amended: the engine is a pure function of its explicit
inputs, and for a Type rule the produced Issue multiset does not depend on
the enumeration order of the hash-map fields: permuting the enumeration
permutes the issues.  (Order stability within a Type rule holds only up to
this permutation; the Required variant keeps its declared Vec order by
construction.) -/
theorem c2_run_order (valid : String → Bool) (rex : String → String → Bool)
    (f1 f2 : List (String × String)) (m l : Option String) (j : Json)
    (file rid : String) (hp : f1.Perm f2) :
    (run_checks valid rex [Check.typeOf f1 m l] j file rid).Perm
      (run_checks valid rex [Check.typeOf f2 m l] j file rid) := by
  simp only [run_checks, List.map_cons, List.map_nil, List.flatten_cons,
    List.flatten_nil, List.append_nil, runCheck1]
  exact hp.filterMap _

theorem c2_run_order_witness :
    ([(("a" : String), ("string" : String)), ("b", "string")]).Perm
      [("b", "string"), ("a", "string")] ∧
    (run_checks (fun _ => false) (fun _ _ => false)
      [Check.typeOf [("a", "string"), ("b", "string")] none none]
      (Json.obj (.cons "a" (Json.inum 1) (.cons "b" (Json.inum 2) .nil)))
      "package.json" "r").Perm
    (run_checks (fun _ => false) (fun _ _ => false)
      [Check.typeOf [("b", "string"), ("a", "string")] none none]
      (Json.obj (.cons "a" (Json.inum 1) (.cons "b" (Json.inum 2) .nil)))
      "package.json" "r") :=
  ⟨by decide, c2_run_order (fun _ => false) (fun _ _ => false) _ _ none none _
    "package.json" "r" (by decide)⟩

/-- Claim C3, counterexample: the destination has the value 7 at the keep
path a.b, but because the template holds the non-Object value 5 at the
intermediate a, the write silently no-ops and the merged document does not
hold the destination value at a.b. -/
theorem c3_cex :
    get_json_path (Json.obj (.cons "a" (Json.obj (.cons "b" (Json.inum 7) .nil)) .nil))
      "a.b" = some (Json.inum 7) ∧
    get_json_path (mergeResult (Json.obj (.cons "a" (Json.inum 5) .nil))
      (Json.obj (.cons "a" (Json.obj (.cons "b" (Json.inum 7) .nil)) .nil))
      ⟨[], ["a.b"], [], none⟩) "a.b" = none := by
  decide

/-- Claim C3 as amended: for a merge configuration whose only populated
list is keep_paths = [p], and provided every proper prefix of p resolves
in the template to an Object or to nothing (the documented set no-op on
non-Object intermediates), the merged document holds the destination value
at p whenever the destination has one, and every top-level key other than
the first segment of p keeps the template value. -/
theorem c3_keep_path (src dst v : Json) (p : String) (segs : List String)
    (hg : parseGetPath p = segs) (hs : parseSetPathStr p = segs)
    (hpre : prefOk src segs = true) (hd : walk dst segs = some v) :
    get_json_path (mergeResult src dst ⟨[], [p], [], none⟩) p = some v ∧
    (∀ s rest k, segs = s :: rest → k ≠ s →
      topGet (mergeResult src dst ⟨[], [p], [], none⟩) k = topGet src k) := by
  have hdp : get_json_path dst p = some v := by rw [get_json_path, hg]; exact hd
  have hm : mergeResult src dst ⟨[], [p], [], none⟩ = set_path src p (some v) := by
    rw [mergeResult_keep_one, hdp]
  constructor
  · rw [hm, get_json_path, hg]
    exact set_path_get_roundtrip src v p segs hs hpre
  · intro s rest k hcon hk
    subst hcon
    rw [hm]
    simp only [set_path, hs]
    exact topGet_setSegs_ne src s rest (some v) k hk

theorem c3_keep_path_witness :
    get_json_path (mergeResult
      (Json.obj (.cons "x" (Json.inum 1) (.cons "y" (Json.inum 2) .nil)))
      (Json.obj (.cons "x" (Json.inum 9) (.cons "y" (Json.inum 2) .nil)))
      ⟨[], ["x"], [], none⟩) "x" = some (Json.inum 9) ∧
    topGet (mergeResult
      (Json.obj (.cons "x" (Json.inum 1) (.cons "y" (Json.inum 2) .nil)))
      (Json.obj (.cons "x" (Json.inum 9) (.cons "y" (Json.inum 2) .nil)))
      ⟨[], ["x"], [], none⟩) "y" =
      topGet (Json.obj (.cons "x" (Json.inum 1) (.cons "y" (Json.inum 2) .nil))) "y" := by
  have hh := c3_keep_path
    (Json.obj (.cons "x" (Json.inum 1) (.cons "y" (Json.inum 2) .nil)))
    (Json.obj (.cons "x" (Json.inum 9) (.cons "y" (Json.inum 2) .nil)))
    (Json.inum 9) "x" ["x"] (by decide) (by decide) (by decide) (by decide)
  exact ⟨hh.1, hh.2 "x" [] "y" rfl (by decide)⟩

/-- Claim C4 (array union strategy): with a single declared array path p of
strategy union and a template array at p, the merged value at p is exactly
the specification wording — destination elements in destination order,
then the template elements not already structurally present, de-duplicated
by structural equality; any other strategy (including replace) leaves the
template document verbatim. -/
theorem c4_array_union (src dst : Json) (p : String) (segs : List String) (sa : JsonList)
    (hg : parseGetPath p = segs) (hs : parseSetPathStr p = segs)
    (hsrc : walk src segs = some (Json.arr sa)) :
    get_json_path (mergeResult src dst ⟨[], [], [], some [(p, "union")]⟩) p =
      some (Json.arr (unionSpecWords (destArrAt dst segs) sa)) ∧
    (∀ strat, strat ≠ "union" →
      mergeResult src dst ⟨[], [], [], some [(p, strat)]⟩ = src) := by
  constructor
  · have hgp : get_json_path src p = some (Json.arr sa) := by
      rw [get_json_path, hg]; exact hsrc
    rw [mergeResult_array_one]
    simp only [if_pos rfl, hgp]
    have hda : (match get_json_path dst p with
        | some v => (match v with | Json.arr d => d | _ => JsonList.nil)
        | none => JsonList.nil) = destArrAt dst segs := by
      rw [get_json_path, hg, destArrAt]
      cases hw : walk dst segs with
      | none => rfl
      | some v => cases v <;> rfl
    rw [hda, ← unionArr_eq_words, get_json_path, hg]
    exact set_path_get_roundtrip src _ p segs hs (prefOk_of_walk segs src _ hsrc)
  · intro strat hst
    rw [mergeResult_array_one]
    simp only [if_neg hst]
    cases hv : get_json_path src p with
    | none => rfl
    | some v =>
        have hwv : walk src segs = some v := by rw [get_json_path, hg] at hv; exact hv
        exact set_path_same src v p segs hs hwv

theorem c4_array_union_witness :
    get_json_path (mergeResult
      (Json.obj (.cons "a" (Json.arr (.cons (Json.inum 1)
        (.cons (Json.inum 2) (.cons (Json.inum 3) .nil)))) .nil))
      (Json.obj (.cons "a" (Json.arr (.cons (Json.inum 2)
        (.cons (Json.inum 3) .nil))) .nil))
      ⟨[], [], [], some [("a", "union")]⟩) "a" =
      some (Json.arr (.cons (Json.inum 2) (.cons (Json.inum 3)
        (.cons (Json.inum 1) .nil)))) ∧
    mergeResult
      (Json.obj (.cons "a" (Json.arr (.cons (Json.inum 1)
        (.cons (Json.inum 2) (.cons (Json.inum 3) .nil)))) .nil))
      (Json.obj (.cons "a" (Json.arr (.cons (Json.inum 2)
        (.cons (Json.inum 3) .nil))) .nil))
      ⟨[], [], [], some [("a", "replace")]⟩ =
      Json.obj (.cons "a" (Json.arr (.cons (Json.inum 1)
        (.cons (Json.inum 2) (.cons (Json.inum 3) .nil)))) .nil) := by
  have hh := c4_array_union
    (Json.obj (.cons "a" (Json.arr (.cons (Json.inum 1)
      (.cons (Json.inum 2) (.cons (Json.inum 3) .nil)))) .nil))
    (Json.obj (.cons "a" (Json.arr (.cons (Json.inum 2)
      (.cons (Json.inum 3) .nil))) .nil))
    "a" ["a"]
    (.cons (Json.inum 1) (.cons (Json.inum 2) (.cons (Json.inum 3) .nil)))
    (by decide) (by decide) (by decide)
  refine ⟨?_, hh.2 "replace" (by decide)⟩
  rw [hh.1]
  decide

/-- Claim C5, counterexample: the checksum sidecar content equals the
fingerprint of the canonical merge output, yet the run reports
would_write = true — the decision compares against the fingerprint of the
current destination text (absent here), not against the sidecar, which is
written but never read. -/
theorem c5_cex :
    (apply_json_merge hashConst (Json.obj (.cons "x" (Json.inum 1) .nil)) none
      (some (fingerprint hashConst (prettyV (Json.obj (.cons "x" (Json.inum 1) .nil)) 0)))
      ⟨[], [], [], none⟩ false).wouldWrite = true ∧
    (some (fingerprint hashConst (prettyV (Json.obj (.cons "x" (Json.inum 1) .nil)) 0))
      : Option String) =
    some (fingerprint hashConst
      ((apply_json_merge hashConst (Json.obj (.cons "x" (Json.inum 1) .nil)) none
        (some (fingerprint hashConst (prettyV (Json.obj (.cons "x" (Json.inum 1) .nil)) 0)))
        ⟨[], [], [], none⟩ false).outStr)) := by
  decide

/-- Claim C5 as amended: the fingerprint of the canonical merge output is
compared against the fingerprint recomputed from the current destination
content (the checksum file is only written); consequently, whenever the
computed canonical output is byte-identical to the current destination
text — in particular on the second of two consecutive merges after a
write — the run reports would_write = false and wrote = false and performs
no writes. -/
theorem c5_fingerprint (h : String → String) (src : Json) (t : String)
    (pj : Option Json) (chk : Option String) (cfg : MergeCfg) (write : Bool)
    (hEq : prettyV (mergeResult src (dstJsonOf (some (t, pj))) cfg) 0 = t) :
    (apply_json_merge h src (some (t, pj)) chk cfg write).wouldWrite = false ∧
    (apply_json_merge h src (some (t, pj)) chk cfg write).wrote = false ∧
    (apply_json_merge h src (some (t, pj)) chk cfg write).state =
      ⟨some t, chk⟩ := by
  simp [apply_json_merge, hEq]

theorem c5_fingerprint_witness :
    (apply_json_merge hashConst (Json.obj (.cons "x" (Json.inum 1) .nil))
      (some (prettyV (Json.obj (.cons "x" (Json.inum 1) .nil)) 0,
        some (Json.obj (.cons "x" (Json.inum 1) .nil))))
      none ⟨[], [], [], none⟩ true).wouldWrite = false ∧
    (apply_json_merge hashConst (Json.obj (.cons "x" (Json.inum 1) .nil))
      (some (prettyV (Json.obj (.cons "x" (Json.inum 1) .nil)) 0,
        some (Json.obj (.cons "x" (Json.inum 1) .nil))))
      none ⟨[], [], [], none⟩ true).wrote = false := by
  have hh := c5_fingerprint hashConst (Json.obj (.cons "x" (Json.inum 1) .nil))
    (prettyV (Json.obj (.cons "x" (Json.inum 1) .nil)) 0)
    (some (Json.obj (.cons "x" (Json.inum 1) .nil))) none ⟨[], [], [], none⟩ true
    (by decide)
  exact ⟨hh.1, hh.2.1⟩

/-- Claim C6, counterexample: an absent field checked with Const against an
expected value of null produces an Issue (the code compares Option values,
so absence is never equal to the expected value, even null); the claim
says this case produces no Issue. -/
theorem c6_cex :
    run_checks (fun _ => false) (fun _ _ => false)
      [Check.const "x" Json.null none none] (Json.obj .nil) "f" "r" =
      [⟨"f", "r", "error", "$.x", "Field must equal expected value"⟩] := by
  decide

/-- Claim C6 as amended: a Const check produces an Issue exactly when the
value resolved at the field is not present-and-structurally-equal to the
expected value; in particular an absent field always produces an Issue,
whatever the expected value (absence is rendered as null only in the
message, not treated as null in the comparison). -/
theorem c6_const_semantics (valid : String → Bool) (rex : String → String → Bool)
    (field : String) (value : Json) (m l : Option String) (j : Json)
    (file rid : String) :
    run_checks valid rex [Check.const field value m l] j file rid ≠ [] ↔
      get_json_path j field ≠ some value := by
  by_cases h : get_json_path j field = some value <;>
    simp [run_checks, runCheck1, h]

/-- Claim C7, counterexample: the number written 2.0 is stored in float
representation, as_i64 returns None, so a TypeOf rule declaring integer
produces an Issue; the claim says a number with zero fractional part
counts as an integer. -/
theorem c7_cex :
    run_checks (fun _ => false) (fun _ _ => false)
      [Check.typeOf [("i", "integer")] none none]
      (Json.obj (.cons "i" (Json.fnum 2) .nil)) "f" "r" =
      [⟨"f", "r", "error", "$.i", "Expected integer at $.$.i"⟩] := by
  decide

/-- Claim C7 as amended: a TypeOf rule fires for a field exactly when the
field is present with a runtime kind differing from the declared kind,
where integer means a number in integer (i64) representation: a float
written 2.0 is not an integer; an absent field is skipped. -/
theorem c7_typeof_semantics (valid : String → Bool) (rex : String → String → Bool)
    (p kind : String) (m l : Option String) (j : Json) (file rid : String) :
    run_checks valid rex [Check.typeOf [(p, kind)] m l] j file rid ≠ [] ↔
      (∃ v, get_json_path j p = some v ∧ is_type v kind = false) := by
  cases hg : get_json_path j p with
  | none => simp [run_checks, runCheck1, hg]
  | some v => by_cases ht : is_type v kind <;> simp [run_checks, runCheck1, hg, ht]

/-- Claim C8, counterexample: deleting the absent path a.b from the empty
document is not a no-op — the walk creates the missing intermediate Object
a, so the tree changes. -/
theorem c8_cex :
    set_path (Json.obj .nil) "a.b" none = Json.obj (.cons "a" (Json.obj .nil) .nil) ∧
    Json.obj (.cons "a" (Json.obj .nil) .nil) ≠ Json.obj .nil := by
  decide

/-- Claim C8 as amended: when the parent of the final segment resolves in
the tree, a delete removes the final key from that parent Object: the path
is absent afterwards and sibling paths are untouched; and the delete is a
no-op exactly when the resolved parent is a non-Object or does not contain
the key.  (When an intermediate segment is missing, the walk instead
creates empty intermediate Objects, as the counterexample shows.) -/
theorem c8_delete (root par : Json) (p : String) (segs : List String) (last : String)
    (hs : parseSetPathStr p = segs ++ [last]) (hw : walk root segs = some par) :
    (delNoopOk par last → set_path root p none = root) ∧
    walk (set_path root p none) (segs ++ [last]) = none ∧
    (∀ k, k ≠ last → walk (set_path root p none) (segs ++ [k]) = walk root (segs ++ [k])) := by
  have hsp : set_path root p none = setSegs root (segs ++ [last]) none := by
    cases hq : segs ++ [last] with
    | nil => simp at hq
    | cons a b =>
        simp only [set_path, hs, hq]
    
  refine ⟨?_, ?_, ?_⟩
  · intro hok
    rw [hsp]
    exact setSegs_del_noop segs root par last hw hok
  · rw [hsp]
    exact walk_setSegs_del_none (segs ++ [last]) root (by simp)
  · intro k hk
    rw [hsp]
    exact walk_setSegs_del_sibling segs root par last k hw hk

theorem c8_delete_witness :
    walk (set_path (Json.obj (.cons "a" (Json.obj (.cons "b" (Json.inum 1)
      (.cons "c" (Json.inum 2) .nil)) ) .nil)) "a.b" none) (["a"] ++ ["b"]) = none ∧
    walk (set_path (Json.obj (.cons "a" (Json.obj (.cons "b" (Json.inum 1)
      (.cons "c" (Json.inum 2) .nil)) ) .nil)) "a.b" none) (["a"] ++ ["c"]) =
    walk (Json.obj (.cons "a" (Json.obj (.cons "b" (Json.inum 1)
      (.cons "c" (Json.inum 2) .nil)) ) .nil)) (["a"] ++ ["c"]) := by
  have hh := c8_delete
    (Json.obj (.cons "a" (Json.obj (.cons "b" (Json.inum 1)
      (.cons "c" (Json.inum 2) .nil)) ) .nil))
    (Json.obj (.cons "b" (Json.inum 1) (.cons "c" (Json.inum 2) .nil)))
    "a.b" ["a"] "b" (by decide) (by decide)
  exact ⟨hh.2.1, hh.2.2 "c" (by decide)⟩

/-- Claim C9, counterexample: with an uncompilable pattern, a present
empty-string value produces no Issue — the fallback matcher Regex::new of
the empty-line pattern matches the empty string, so the degradation is not
an always-false matcher as claimed. -/
theorem c9_cex :
    run_checks (fun _ => false) (fun _ _ => false)
      [Check.pattern "f" "(" none none]
      (Json.obj (.cons "f" (Json.str "") .nil)) "p.json" "r" = [] := by
  decide

/-- Claim C9 as amended: an uncompilable pattern degrades, without aborting
the run, to a matcher that accepts exactly the empty string: a present
string value produces a pattern-mismatch Issue if and only if it is
non-empty. -/
theorem c9_invalid_pattern (valid : String → Bool) (rex : String → String → Bool)
    (f pat s : String) (m l : Option String) (j : Json) (file rid : String)
    (hv : valid pat = false) (hg : get_json_path j f = some (Json.str s)) :
    run_checks valid rex [Check.pattern f pat m l] j file rid ≠ [] ↔ s ≠ "" := by
  by_cases hse : s = "" <;>
    simp [run_checks, runCheck1, hg, patternMatches, hv, hse]

theorem c9_invalid_pattern_witness :
    ((fun _ => false) : String → Bool) "(" = false ∧
    run_checks (fun _ => false) (fun _ _ => false)
      [Check.pattern "f" "(" none none]
      (Json.obj (.cons "f" (Json.str "x") .nil)) "p.json" "r" ≠ [] := by
  refine ⟨rfl, ?_⟩
  exact (c9_invalid_pattern (fun _ => false) (fun _ _ => false) "f" "(" "x"
    none none (Json.obj (.cons "f" (Json.str "x") .nil)) "p.json" "r" rfl
    (by decide)).mpr (by decide)

/-- Claim C10 (implicit): an existing but unparseable destination is
treated as null (not a failure, not the verbatim-copy fallback, which is
reserved for an unparseable template); every keep_paths and nosync_paths
lookup then misses, so the path is deleted from the merge result and the
destination customization at that path is discarded. -/
theorem c10_unparseable_dst (src : Json) (txt : String) (p : String)
    (segs : List String) (hg : parseGetPath p = segs) (hs : parseSetPathStr p = segs)
    (hne : segs ≠ []) :
    mergeTakesCopy (some src) = false ∧
    dstJsonOf (some (txt, none)) = Json.null ∧
    get_json_path (dstJsonOf (some (txt, none))) p = none ∧
    get_json_path (mergeResult src (dstJsonOf (some (txt, none)))
      ⟨[], [p], [], none⟩) p = none ∧
    get_json_path (mergeResult src (dstJsonOf (some (txt, none)))
      ⟨[], [], [p], none⟩) p = none := by
  have hmiss : get_json_path (dstJsonOf (some (txt, none))) p = none := by
    rw [get_json_path, hg]
    cases hsegs : segs with
    | nil => exact absurd hsegs hne
    | cons s0 r0 => simp [dstJsonOf, walk]
  refine ⟨rfl, rfl, hmiss, ?_, ?_⟩
  · rw [mergeResult_keep_one, hmiss, get_json_path, hg]
    exact set_path_del_none src p segs hs hne
  · rw [mergeResult_nosync_one, hmiss, get_json_path, hg]
    exact set_path_del_none src p segs hs hne

theorem c10_unparseable_dst_witness :
    get_json_path (mergeResult (Json.obj (.cons "a" (Json.inum 1) .nil))
      (dstJsonOf (some ("not json", none))) ⟨[], ["a"], [], none⟩) "a" = none := by
  exact (c10_unparseable_dst (Json.obj (.cons "a" (Json.inum 1) .nil))
    "not json" "a" ["a"] (by decide) (by decide) (by decide)).2.2.2.1
